import Mathlib

/-!
Verification of the youtube-analytics-cli core components against a shallow
embedding of the Python source.  Strings are modelled as `List Char`
(Python `str`), dictionaries with `.get` defaults as structures with
`Option` fields, SQLite tables as Lean lists of row structures, and the
regular-expression engine as an abstract matcher function.  Timestamps
(`CURRENT_TIMESTAMP`) are an abstract `Nat` passed explicitly.
-/

namespace YTA

/-- Characters treated as whitespace by the Python `str.strip()` default set
(ASCII fragment). -/
def pySpace (c : Char) : Bool :=
  c = ' ' || c = '\t' || c = '\n' || c = '\r' || c = '\x0b' || c = '\x0c'

/-- Python `str.strip(chars)`: drop characters satisfying `p` from both ends. -/
def pyStripBy (p : Char → Bool) (l : List Char) : List Char :=
  ((l.dropWhile p).reverse.dropWhile p).reverse

/-- Python `str.strip()` with the default whitespace set. -/
def pyStrip (l : List Char) : List Char := pyStripBy pySpace l

/-- Python truthiness of an optional string: `None` and the empty string are
falsy, every other string is truthy. -/
def pyTruthy : Option (List Char) → Bool
  | none => false
  | some l => !l.isEmpty

/-- Python `str.isdigit()` restricted to ASCII digits: true on a nonempty
all-digit string. -/
def pyIsDigit (l : List Char) : Bool := !l.isEmpty && l.all Char.isDigit

/-- Numeric value of a digit string. -/
def digitsVal (l : List Char) : Nat :=
  l.foldl (fun acc c => 10 * acc + (c.toNat - '0'.toNat)) 0

/-- Python `int(s)` on a string, modelled for ASCII: surrounding whitespace is
ignored, an optional sign is followed by a nonempty digit run; anything else
fails (the source catches the resulting `ValueError`). -/
def parseInt (l : List Char) : Option Int :=
  match pyStrip l with
  | [] => none
  | '-' :: ds => if !ds.isEmpty && ds.all Char.isDigit then some (-(digitsVal ds : Int)) else none
  | '+' :: ds => if !ds.isEmpty && ds.all Char.isDigit then some ((digitsVal ds : Int)) else none
  | ds => if ds.all Char.isDigit then some ((digitsVal ds : Int)) else none

/-!
## show_mapper.py : ShowMapper._extract_show_episode

A compiled regular expression is abstracted as a search function from the
title to an optional match; a match carries the full matched text
(`group(0)`) and the list of capture groups.  Python group values that did
not participate are not modelled (the source would crash on `None.strip()`),
so each group is a plain string.
-/

/-- Result of `re.search`: the full match plus the texts of the capture
groups, in order. -/
structure ReMatch where
  full : List Char
  groups : List (List Char)

/-- Abstract regular expression: the behaviour of `re.search(rx, title)`. -/
def Regex := List Char → Option ReMatch

/-- Python `match.group(i)`: group 0 is the whole match, group `i ≥ 1` is the
corresponding capture group when it exists. -/
def ReMatch.group (m : ReMatch) (i : Nat) : Option (List Char) :=
  if i = 0 then some m.full else m.groups.get? (i - 1)

/-- One rule of the ordered `show_patterns` configuration list.
`enabled` models `pattern.get('enabled', True)`; `titleRegex = none` models a
missing or falsy `title_regex` (the rule is skipped); `showGroup = 0` models a
missing or zero `show_group` (both are falsy in `if pattern.get('show_group')`);
`episodeGroup = none` models a missing `episode_group` (default 1). -/
structure ShowPattern where
  enabled : Bool
  name : Option (List Char)
  titleRegex : Option Regex
  showGroup : Nat
  episodeRegex : Option Regex
  episodeGroup : Option Nat

/-- Show-name resolution of a single matched rule: start from the static
`name`; when `show_group` is truthy and the match produced at least that many
groups, use the trimmed text of that group instead. -/
def showNameOf (p : ShowPattern) (m : ReMatch) : Option (List Char) :=
  if p.showGroup ≠ 0 then
    if p.showGroup ≤ m.groups.length then
      some (pyStrip ((m.group p.showGroup).getD []))
    else p.name
  else p.name

/-- Episode-number resolution of a single rule: a separate `re.search` of the
episode expression against the full title; the selected group (default 1) is
parsed as an integer, and any failure (no expression, no match, missing group,
unparsable text) yields `none`. -/
def episodeOf (p : ShowPattern) (title : List Char) : Option Int :=
  match p.episodeRegex with
  | none => none
  | some erx =>
    match erx title with
    | none => none
    | some em =>
      let g := p.episodeGroup.getD 1
      if g ≤ em.groups.length then parseInt ((em.group g).getD []) else none

/-- Embedding of `ShowMapper._extract_show_episode`: iterate the rules in
order, skip disabled rules and rules without a title expression, and return
the first rule whose resolved show name is truthy, together with its episode
number; `(none, none)` when the list is exhausted. -/
def extractShowEpisode (ps : List ShowPattern) (title : List Char) :
    Option (List Char) × Option Int :=
  match ps with
  | [] => (none, none)
  | p :: rest =>
    if !p.enabled then extractShowEpisode rest title
    else
      match p.titleRegex with
      | none => extractShowEpisode rest title
      | some rx =>
        match rx title with
        | none => extractShowEpisode rest title
        | some m =>
          let sn := showNameOf p m
          if pyTruthy sn then (sn, episodeOf p title)
          else extractShowEpisode rest title

/-- Helper regex for concrete fixtures: always matches with full text `x` and
a single capture group `g`. -/
def rxOneGroup : Regex := fun _ => some ⟨['x'], [['g']]⟩

/-- Helper regex for concrete fixtures: always matches with no capture
groups. -/
def rxNoGroup : Regex := fun _ => some ⟨['x'], []⟩

/-- Fixture rule A with a static name and an out-of-range show group. -/
def ruleStaticA : ShowPattern :=
  ⟨true, some ("StaticA".toList), some rxOneGroup, 2, none, none⟩

/-- Fixture rule A without a static name and with an out-of-range show
group. -/
def ruleNoName : ShowPattern :=
  ⟨true, none, some rxOneGroup, 2, none, none⟩

/-- Fixture rule B resolving the static show name `B`. -/
def ruleB : ShowPattern :=
  ⟨true, some ("B".toList), some rxNoGroup, 0, none, none⟩

/-- C3 (amended): when an enabled rule matches the title but its configured
show group index exceeds the number of produced groups, show resolution falls
back to the static rule name; when that name is falsy the rule resolves
nothing and evaluation falls through to the remaining rules, and when it is
truthy the rule returns the static name. -/
theorem out_of_range_show_group_falls_back_to_static_name
    (p : ShowPattern) (rest : List ShowPattern) (title : List Char)
    (rx : Regex) (m : ReMatch)
    (hen : p.enabled = true) (hrx : p.titleRegex = some rx) (hm : rx title = some m)
    (hg : p.showGroup ≠ 0) (hlen : m.groups.length < p.showGroup) :
    (pyTruthy p.name = false →
      extractShowEpisode (p :: rest) title = extractShowEpisode rest title) ∧
    (pyTruthy p.name = true →
      extractShowEpisode (p :: rest) title = (p.name, episodeOf p title)) := by
  have hsn : showNameOf p m = p.name := by
    unfold showNameOf
    rw [if_pos hg, if_neg (by omega)]
  constructor
  · intro hf
    simp [extractShowEpisode, hen, hrx, hm, hsn, hf]
  · intro ht
    simp [extractShowEpisode, hen, hrx, hm, hsn, ht]

/-- C3 witness: the fallthrough branch fires on a rule without a static name,
and the fallback branch returns the static name of rule A. -/
theorem out_of_range_show_group_falls_back_to_static_name_witness :
    (extractShowEpisode [ruleNoName, ruleB] [] = extractShowEpisode [ruleB] []) ∧
    (extractShowEpisode [ruleStaticA] [] =
      (some ("StaticA".toList), episodeOf ruleStaticA [])) := by
  constructor
  · exact (out_of_range_show_group_falls_back_to_static_name ruleNoName [ruleB] []
      rxOneGroup ⟨['x'], [['g']]⟩ rfl rfl rfl (by decide) (by decide)).1 rfl
  · exact (out_of_range_show_group_falls_back_to_static_name ruleStaticA [] []
      rxOneGroup ⟨['x'], [['g']]⟩ rfl rfl rfl (by decide) (by decide)).2 rfl

/-- C3 counterexample: rule A matches the title with an out-of-range show
group yet resolves its static name, so the result is not the one of rule B:
the claim that an out-of-range group always means no resolution is false. -/
theorem out_of_range_show_group_counterexample :
    (extractShowEpisode [ruleStaticA, ruleB] []).1 = some ("StaticA".toList) ∧
    some ("StaticA".toList) ≠ some ("B".toList) := by
  constructor
  · rfl
  · decide

/-- C6: episode-number failure never suppresses a resolved show name.  When an
enabled rule matches the title and its show name is truthy, and the episode
side fails in any of the four ways (no episode expression, the separate search
of the full title finds no match, the selected group is absent, or the group
text does not parse as an integer), the result is the show with episode
`none` rather than `(none, none)`. -/
theorem episode_failure_keeps_show
    (p : ShowPattern) (rest : List ShowPattern) (title : List Char)
    (rx : Regex) (m : ReMatch)
    (hen : p.enabled = true) (hrx : p.titleRegex = some rx) (hm : rx title = some m)
    (hsn : pyTruthy (showNameOf p m) = true)
    (hep : p.episodeRegex = none ∨
      (∃ erx, p.episodeRegex = some erx ∧ erx title = none) ∨
      (∃ erx em, p.episodeRegex = some erx ∧ erx title = some em ∧
        em.groups.length < p.episodeGroup.getD 1) ∨
      (∃ erx em, p.episodeRegex = some erx ∧ erx title = some em ∧
        p.episodeGroup.getD 1 ≤ em.groups.length ∧
        parseInt ((em.group (p.episodeGroup.getD 1)).getD []) = none)) :
    extractShowEpisode (p :: rest) title = (showNameOf p m, none) ∧
    showNameOf p m ≠ none := by
  have he : episodeOf p title = none := by
    rcases hep with h | ⟨erx, he1, he2⟩ | ⟨erx, em, he1, he2, he3⟩ |
      ⟨erx, em, he1, he2, he3, he4⟩
    · simp [episodeOf, h]
    · simp [episodeOf, he1, he2]
    · simp only [episodeOf, he1, he2]
      exact if_neg (by omega)
    · simp only [episodeOf, he1, he2]
      rw [if_pos he3, he4]
  refine ⟨?_, ?_⟩
  · simp [extractShowEpisode, hen, hrx, hm, hsn, he]
  · intro hcon
    rw [hcon] at hsn
    simp [pyTruthy] at hsn

/-!
## youtube_client.py : YouTubeClient._detect_youtube_short

The `snippet` dictionary is modelled with its defaults applied
(`get('description', '')`, `get('title', '')`, `get('tags', [])`); the
`recording_details` dictionary is `Option RecordingDetails`, with `none` for a
missing or empty (falsy) dictionary.  The `content_details` and `status`
arguments of the source function are unused by it and omitted. -/

/-- Lowercasing a Python string (ASCII model of `str.lower()`). -/
def pyLower (l : List Char) : List Char := l.map Char.toLower

/-- Python substring test `sub in hay`. -/
def pyContains (hay sub : List Char) : Bool := decide (sub <:+: hay)

/-- The `recordingDetails` object; only `recordingDate` is inspected. -/
structure RecordingDetails where
  recordingDate : Option (List Char)

/-- The fields of the `snippet` object inspected by the classifier. -/
structure Snippet where
  description : List Char
  title : List Char
  tags : List (List Char)

/-- Shorts hashtag keywords searched in the description. -/
def shortsKeywords : List (List Char) :=
  ["#shorts", "#short", "#youtubeshorts", "#ytshorts"].map String.toList

/-- The `additional_indicators` list: one entry per present confidence
signal, in the order the source appends them. -/
def additionalIndicators (sn : Snippet) (rd : Option RecordingDetails) :
    List (List Char) :=
  (match rd with
   | none => []
   | some r => if pyTruthy r.recordingDate then ["mobile_recorded".toList] else []) ++
  (if shortsKeywords.any (fun kw => pyContains (pyLower sn.description) kw) then
    ["shorts_hashtag".toList] else []) ++
  (if pyContains (pyLower sn.title) ("#shorts".toList) ||
      pyContains (pyLower sn.title) ("#short".toList) then
    ["shorts_title".toList] else []) ++
  (if !sn.tags.isEmpty &&
      !(sn.tags.filter (fun tg => pyContains (pyLower tg) ("short".toList))).isEmpty
   then ["shorts_tags".toList] else [])

/-- Embedding of `_detect_youtube_short`: duration rule plus the
`confidence_score >= 2` override capped by the 65-second buffer. -/
def detectYoutubeShort (durationSeconds : Nat) (sn : Snippet)
    (rd : Option RecordingDetails) : Bool :=
  let isDurationShort := durationSeconds ≤ 60 && durationSeconds > 0
  let confidenceScore := (additionalIndicators sn rd).length
  if isDurationShort && confidenceScore > 0 then isDurationShort
  else if isDurationShort then isDurationShort
  else if confidenceScore ≥ 2 then durationSeconds ≤ 65
  else isDurationShort

/-- C4 (amended): the classifier returns short exactly when the duration lies
in (0, 60], or when the duration is outside that range, is at most 65, and at
least two confidence signals are present — the override branch also applies
to duration 0, not only to durations above 60. -/
theorem detect_short_characterization (d : Nat) (sn : Snippet)
    (rd : Option RecordingDetails) :
    detectYoutubeShort d sn rd = true ↔
      ((0 < d ∧ d ≤ 60) ∨
       (¬(0 < d ∧ d ≤ 60) ∧ d ≤ 65 ∧
         2 ≤ (additionalIndicators sn rd).length)) := by
  unfold detectYoutubeShort
  simp only []
  split_ifs with h1 h2 h3 <;>
    simp_all [Bool.and_eq_true, decide_eq_true_eq] <;> omega

/-- Fixture snippet carrying two confidence signals (description hashtag and
title hashtag). -/
def snTwoSignals : Snippet := ⟨"#shorts".toList, "#short".toList, []⟩

/-- C4 counterexample: at duration 0 with two confidence signals the code
classifies the video as short, while the claimed characterization (0 < d ≤ 60,
or d > 60 with d ≤ 65 and two signals) says it never is. -/
theorem detect_short_counterexample :
    detectYoutubeShort 0 snTwoSignals none = true ∧
    ¬((0 < 0 ∧ 0 ≤ 60) ∨
      (60 < 0 ∧ 0 ≤ 65 ∧ 2 ≤ (additionalIndicators snTwoSignals none).length)) := by
  constructor
  · decide
  · decide

/-- Fixture regex whose single capture group is non-numeric text. -/
def rxEpAlpha : Regex := fun _ => some ⟨['x'], [("abc".toList)]⟩

/-- Fixture rule resolving a static show with a non-numeric episode group. -/
def ruleEpAlpha : ShowPattern :=
  ⟨true, some ("Show".toList), some rxNoGroup, 0, some rxEpAlpha, none⟩

/-- C6 witness: a title matching a rule whose episode group text is
non-numeric yields the show with episode `none`. -/
theorem episode_failure_keeps_show_witness :
    extractShowEpisode [ruleEpAlpha] ['t'] = (some ("Show".toList), none) ∧
    showNameOf ruleEpAlpha ⟨['x'], []⟩ ≠ none := by
  have h := episode_failure_keeps_show ruleEpAlpha [] ['t'] rxNoGroup ⟨['x'], []⟩
    rfl rfl rfl (by decide)
    (Or.inr (Or.inr (Or.inr ⟨rxEpAlpha, ⟨['x'], [("abc".toList)]⟩, rfl, rfl,
      by decide, by decide⟩)))
  exact h

/-!
## data_storage.py : DataStorage.save_video_stats_db

The `video_stats` and `traffic_sources` SQLite tables are lists of row
structures in rowid order; inserts append.  The autoincrement `id` column is
not modelled (the source only uses it as an existence witness).  The column
`show` is called `showCol` here because `show` is a Lean keyword.
`CURRENT_TIMESTAMP` is the explicit argument `now`. -/

/-- One row of the `video_stats` table. -/
structure VideoRow where
  video_id : List Char
  channel_id : List Char
  title : List Char
  description : List Char
  upload_time : List Char
  duration : Int
  watch_url : List Char
  view_count : Int
  like_count : Int
  dislike_count : Int
  comment_count : Int
  visibility : Option (List Char)
  is_short : Bool
  showCol : Option (List Char)
  episode_num : Option Int
  thumbnail_url : Option (List Char)
  exclude_from_stats : Int
  tags : Option (List Char)
  subscriber_count : Option Int
  collected_at : Nat
  last_updated : Nat
deriving DecidableEq

/-- One row of the `traffic_sources` table. -/
structure TrafficRow where
  video_id : List Char
  traffic_source : List Char
  views : Int
  collected_at : Nat
deriving DecidableEq

/-- The `video_stats` input dictionary; fields read through `.get` with a
possible `None` are `Option`-typed, with the default applied where the source
applies it. -/
structure VideoStatsIn where
  video_id : List Char
  channel_id : List Char
  title : List Char
  description : Option (List Char)
  upload_time : List Char
  duration_seconds : Int
  watch_url : List Char
  view_count : Int
  like_count : Int
  dislike_count : Option Int
  comment_count : Int
  visibility : Option (List Char)
  is_short : Option Bool
  thumbnail_url : Option (List Char)
  tags : Option (List Char)
  subscriber_count : Option Int
deriving DecidableEq

/-- The two tables written by `save_video_stats_db`. -/
structure DB where
  video_stats : List VideoRow
  traffic_sources : List TrafficRow
deriving DecidableEq

/-- The UPDATE branch: sets every column listed in the SET clause and
`last_updated`; `video_id`, `show`, `episode_num`, `exclude_from_stats` and
`collected_at` are not mentioned there and keep their values. -/
def updateRow (r : VideoRow) (vs : VideoStatsIn) (now : Nat) : VideoRow :=
  { r with
    channel_id := vs.channel_id
    title := vs.title
    description := vs.description.getD []
    upload_time := vs.upload_time
    duration := vs.duration_seconds
    watch_url := vs.watch_url
    view_count := vs.view_count
    like_count := vs.like_count
    dislike_count := vs.dislike_count.getD 0
    comment_count := vs.comment_count
    visibility := vs.visibility
    is_short := vs.is_short.getD false
    thumbnail_url := vs.thumbnail_url
    tags := vs.tags
    subscriber_count := vs.subscriber_count
    last_updated := now }

/-- The INSERT branch: the columns not listed in the INSERT take their SQL
defaults (`show`, `episode_num`, `thumbnail` are given; `exclude_from_stats`
0, both timestamps `CURRENT_TIMESTAMP`). -/
def insertRow (vs : VideoStatsIn) (now : Nat) : VideoRow :=
  { video_id := vs.video_id
    channel_id := vs.channel_id
    title := vs.title
    description := vs.description.getD []
    upload_time := vs.upload_time
    duration := vs.duration_seconds
    watch_url := vs.watch_url
    view_count := vs.view_count
    like_count := vs.like_count
    dislike_count := vs.dislike_count.getD 0
    comment_count := vs.comment_count
    visibility := vs.visibility
    is_short := vs.is_short.getD false
    showCol := none
    episode_num := none
    thumbnail_url := vs.thumbnail_url
    exclude_from_stats := 0
    tags := vs.tags
    subscriber_count := vs.subscriber_count
    collected_at := now
    last_updated := now }

/-- Embedding of `DataStorage.save_video_stats_db`: update in place when a
row with the video id exists, insert otherwise; when the traffic-source
mapping is truthy (present and nonempty), delete all rows of the video id and
insert the new entries in mapping order. -/
def save_video_stats_db (db : DB) (vs : VideoStatsIn)
    (trafficSources : Option (List (List Char × Int))) (now : Nat) : DB :=
  let vtable :=
    if db.video_stats.any (fun r => r.video_id = vs.video_id) then
      db.video_stats.map (fun r =>
        if r.video_id = vs.video_id then updateRow r vs now else r)
    else db.video_stats ++ [insertRow vs now]
  let ttable :=
    match trafficSources with
    | none => db.traffic_sources
    | some ts =>
      if ts.isEmpty then db.traffic_sources
      else (db.traffic_sources.filter (fun t => t.video_id ≠ vs.video_id)) ++
        ts.map (fun sv => TrafficRow.mk vs.video_id sv.1 sv.2 now)
  ⟨vtable, ttable⟩

/-- Uniqueness of the `video_id` key, enforced by the UNIQUE constraint. -/
def dbKeysUnique (db : DB) : Prop :=
  db.video_stats.Pairwise (fun a b => a.video_id ≠ b.video_id)

/-- Updating the unique matching row leaves exactly the updated row under the
key. -/
theorem filter_map_update (vs : VideoStatsIn) (now : Nat) :
    ∀ (l : List VideoRow),
      l.Pairwise (fun a b => a.video_id ≠ b.video_id) →
      ∀ r, l.filter (fun x => x.video_id = vs.video_id) = [r] →
      (l.map (fun x =>
        if x.video_id = vs.video_id then updateRow x vs now else x)).filter
        (fun x => x.video_id = vs.video_id) = [updateRow r vs now] := by
  intro l
  induction l with
  | nil => intro _ r hr; simp at hr
  | cons a t ih =>
    intro hp r hr
    rcases List.pairwise_cons.mp hp with ⟨hat, hpt⟩
    by_cases hak : a.video_id = vs.video_id
    · rw [List.filter_cons_of_pos (by simpa using hak)] at hr
      injection hr with har hft
      have htid : t.map (fun x =>
          if x.video_id = vs.video_id then updateRow x vs now else x) = t := by
        rw [List.map_congr_left (g := id), List.map_id]
        intro x hx
        simp only [id]
        rw [if_neg]
        intro hxk
        exact hat x hx (hak.trans hxk.symm)
      rw [List.map_cons, htid, if_pos hak,
        List.filter_cons_of_pos (by simpa [updateRow] using hak), hft, har]
    · rw [List.filter_cons_of_neg (by simpa using hak)] at hr
      rw [List.map_cons, if_neg hak, List.filter_cons_of_neg (by simpa using hak)]
      exact ih hpt r hr

/-- C1: upsert is convergent and frame-preserving.  With a unique key, when
no row with the video id exists the save inserts exactly one row whose two
timestamps are the current time; when one row exists, the save leaves exactly
one updated row whose mutable fields (view count included) take the new
values, whose `last_updated` is the current time, and whose `collected_at`,
`show`, `episode_num` and `exclude_from_stats` are unchanged. -/
theorem upsert_video_convergent (db : DB) (vs : VideoStatsIn)
    (tso : Option (List (List Char × Int))) (now : Nat)
    (hwf : dbKeysUnique db) :
    (db.video_stats.filter (fun r => r.video_id = vs.video_id) = [] →
      (save_video_stats_db db vs tso now).video_stats.filter
        (fun r => r.video_id = vs.video_id) = [insertRow vs now] ∧
      (insertRow vs now).collected_at = now ∧
      (insertRow vs now).last_updated = now ∧
      (insertRow vs now).view_count = vs.view_count) ∧
    (∀ r, db.video_stats.filter (fun r => r.video_id = vs.video_id) = [r] →
      (save_video_stats_db db vs tso now).video_stats.filter
        (fun x => x.video_id = vs.video_id) = [updateRow r vs now] ∧
      (updateRow r vs now).collected_at = r.collected_at ∧
      (updateRow r vs now).showCol = r.showCol ∧
      (updateRow r vs now).episode_num = r.episode_num ∧
      (updateRow r vs now).exclude_from_stats = r.exclude_from_stats ∧
      (updateRow r vs now).last_updated = now ∧
      (updateRow r vs now).view_count = vs.view_count) := by
  constructor
  · intro hnone
    have hany : db.video_stats.any (fun r => r.video_id = vs.video_id) = false := by
      rw [List.any_eq_false]
      intro x hx
      simp only [decide_eq_true_eq]
      intro hk
      have : x ∈ db.video_stats.filter (fun r => r.video_id = vs.video_id) :=
        List.mem_filter.mpr ⟨hx, by simpa using hk⟩
      rw [hnone] at this
      exact absurd this (List.not_mem_nil x)
    refine ⟨?_, rfl, rfl, rfl⟩
    simp only [save_video_stats_db, hany, Bool.false_eq_true, if_false,
      List.filter_append, hnone]
    simp [insertRow]
  · intro r hr
    have hrmem := List.mem_filter.mp (hr ▸ List.mem_singleton_self r)
    have hany : db.video_stats.any (fun r => r.video_id = vs.video_id) = true :=
      List.any_eq_true.mpr ⟨r, hrmem.1, hrmem.2⟩
    refine ⟨?_, rfl, rfl, rfl, rfl, rfl, rfl⟩
    simp only [save_video_stats_db, hany, if_true]
    exact filter_map_update vs now db.video_stats hwf r hr

/-- Concrete existing row fixture. -/
def row0 : VideoRow :=
  ⟨"v".toList, "c0".toList, "T0".toList, [], "u0".toList, 9, "w0".toList,
    40, 0, 0, 0, none, false, some ("S".toList), some 3, none, 1, none, none, 5, 5⟩

/-- Concrete incoming stats fixture for video id `v`. -/
def vs0 : VideoStatsIn :=
  ⟨"v".toList, "c".toList, "T".toList, none, "u".toList, 10, "w".toList,
    42, 1, none, 2, none, none, none, none, none⟩

/-- Concrete database with one video row. -/
def db1 : DB := ⟨[row0], []⟩

/-- C1 witness: saving new stats for the already-present video id `v` leaves
exactly the updated row, with `collected_at` still 5 and the new view
count 42. -/
theorem upsert_video_convergent_witness :
    (save_video_stats_db db1 vs0 none 7).video_stats.filter
      (fun x => x.video_id = vs0.video_id) = [updateRow row0 vs0 7] ∧
    (updateRow row0 vs0 7).collected_at = 5 ∧
    (updateRow row0 vs0 7).view_count = 42 := by
  have h := (upsert_video_convergent db1 vs0 none 7
    (by simp [dbKeysUnique, db1])).2 row0 (by decide)
  exact ⟨h.1, h.2.1, h.2.2.2.2.2.2⟩

/-- Concrete database holding one stale traffic row for video `v`. -/
def db2 : DB := ⟨[], [⟨"v".toList, "B".toList, 5, 0⟩]⟩

/-- C2 (amended): for every nonempty re-ingested mapping, the traffic rows of
the video id after the save are exactly the entries of the new mapping, in
mapping order and stamped with the current time, and rows of other video ids
are untouched; an absent or empty mapping is falsy in the source and leaves
the prior rows in place. -/
theorem traffic_replacement_complete (db : DB) (vs : VideoStatsIn)
    (ts : List (List Char × Int)) (now : Nat) (hne : ts ≠ []) :
    ((save_video_stats_db db vs (some ts) now).traffic_sources.filter
        (fun t => t.video_id = vs.video_id) =
      ts.map (fun sv => TrafficRow.mk vs.video_id sv.1 sv.2 now)) ∧
    (∀ w, w ≠ vs.video_id →
      (save_video_stats_db db vs (some ts) now).traffic_sources.filter
        (fun t => t.video_id = w) =
      db.traffic_sources.filter (fun t => t.video_id = w)) := by
  have hts : ts.isEmpty = false := by
    cases ts with
    | nil => exact absurd rfl hne
    | cons a l => rfl
  constructor
  · simp only [save_video_stats_db, hts, Bool.false_eq_true, if_false,
      List.filter_append]
    have h1 : (db.traffic_sources.filter (fun t => t.video_id ≠ vs.video_id)).filter
        (fun t => t.video_id = vs.video_id) = [] := by
      rw [List.filter_eq_nil_iff]
      intro a ha
      have := (List.mem_filter.mp ha).2
      simpa using this
    have h2 : (ts.map (fun sv => TrafficRow.mk vs.video_id sv.1 sv.2 now)).filter
        (fun t => t.video_id = vs.video_id) =
        ts.map (fun sv => TrafficRow.mk vs.video_id sv.1 sv.2 now) := by
      rw [List.filter_eq_self]
      intro a ha
      rcases List.mem_map.mp ha with ⟨sv, _, rfl⟩
      simp
    rw [h1, h2, List.nil_append]
  · intro w hw
    simp only [save_video_stats_db, hts, Bool.false_eq_true, if_false,
      List.filter_append]
    have h2 : (ts.map (fun sv => TrafficRow.mk vs.video_id sv.1 sv.2 now)).filter
        (fun t => t.video_id = w) = [] := by
      rw [List.filter_eq_nil_iff]
      intro a ha
      rcases List.mem_map.mp ha with ⟨sv, _, rfl⟩
      simpa using fun h => absurd h.symm hw
    rw [h2, List.append_nil, List.filter_filter]
    apply List.filter_congr
    intro a _
    by_cases hak : a.video_id = w
    · have hav : a.video_id ≠ vs.video_id := fun h => hw (hak.symm.trans h)
      simp [hak, hav]
      exact hw
    · simp [hak]

/-- C2 witness: re-ingesting the nonempty mapping `{A: 12}` for video `v`
replaces the stale `B` row with exactly the `A` row. -/
theorem traffic_replacement_complete_witness :
    (save_video_stats_db db2 vs0 (some [("A".toList, (12 : Int))]) 1).traffic_sources.filter
      (fun t => t.video_id = vs0.video_id) =
      [TrafficRow.mk ("v".toList) ("A".toList) 12 1] := by
  have h := traffic_replacement_complete db2 vs0 [("A".toList, (12 : Int))] 1
    (by decide)
  exact h.1

/-- C2 counterexample: re-ingesting the empty mapping for video `v` (falsy in
`if traffic_sources:`) leaves the prior `B` row in place, so the rows for `v`
are not the entries of the new (empty) mapping. -/
theorem traffic_empty_mapping_counterexample :
    (save_video_stats_db db2 vs0 (some []) 1).traffic_sources.filter
      (fun t => t.video_id = "v".toList) = [TrafficRow.mk ("v".toList) ("B".toList) 5 0] ∧
    [TrafficRow.mk ("v".toList) ("B".toList) 5 0] ≠ ([] : List TrafficRow) := by
  constructor
  · decide
  · decide

/-!
## caption_downloader.py : CaptionDownloader.extract_text_from_vtt

Line-oriented transform: split on newlines, trim, skip header/cue/timestamp
lines, strip `<...>` tags (the Python `re.sub(r'<[^>]+>', '', line)` scan is
embedded as a single left-to-right pass with an explicit pending buffer:
`re.sub` replaces leftmost non-overlapping matches and does not rescan),
skip consecutive duplicates of the previously retained line, join. -/

/-- Python `s.split('\n')`: all parts, including empty ones. -/
def splitNL : List Char → List (List Char)
  | [] => [[]]
  | c :: rest =>
    if c = '\n' then [] :: splitNL rest
    else
      match splitNL rest with
      | [] => [[c]]
      | p :: ps => (c :: p) :: ps

/-- Python `'\n'.join(lines)`. -/
def joinNL : List (List Char) → List Char
  | [] => []
  | [l] => l
  | l :: ls => l ++ '\n' :: joinNL ls

/-- One left-to-right pass of `re.sub(r'<[^>]+>', '', s)`.  The first state
component is the pending buffer: `some bodyRev` holds, reversed, the
characters seen since an unclosed `<`.  A `>` with a nonempty body closes and
drops the tag; a `>` arriving immediately emits `<>` (the pattern needs a
nonempty body); at the end an unclosed buffer is emitted verbatim. -/
def stGo : Option (List Char) → List Char → List Char
  | none, [] => []
  | some bodyRev, [] => '<' :: bodyRev.reverse
  | none, c :: rest =>
    if c = '<' then stGo (some []) rest else c :: stGo none rest
  | some bodyRev, c :: rest =>
    if c = '>' then
      if bodyRev.isEmpty then '<' :: '>' :: stGo none rest else stGo none rest
    else stGo (some (c :: bodyRev)) rest

/-- Embedding of `re.sub(r'<[^>]+>', '', s)`. -/
def stripTags (l : List Char) : List Char := stGo none l

/-- The first skip test of the loop: empty line, `WEBVTT` header, cue-timing
separator, pure digit cue index, or `NOTE` annotation. -/
def skipLine1 (l : List Char) : Bool :=
  l.isEmpty || decide ("WEBVTT".toList <+: l) || decide ("-->".toList <:+: l) ||
  pyIsDigit l || decide ("NOTE".toList <+: l)

/-- The second skip test: inline timestamp tags, detected by the `<00:`
substring. -/
def skipInlineTs (l : List Char) : Bool := decide ("<00:".toList <:+: l)

/-- The body of the loop of `extract_text_from_vtt`, with the
`previous_line` accumulator explicit. -/
def vttCore : List (List Char) → Option (List Char) → List (List Char)
  | [], _ => []
  | raw :: rest, prev =>
    let line := pyStrip raw
    if skipLine1 line then vttCore rest prev
    else if skipInlineTs line then vttCore rest prev
    else
      let line2 := pyStrip (stripTags line)
      if line2.isEmpty then vttCore rest prev
      else if prev = some line2 then vttCore rest prev
      else line2 :: vttCore rest (some line2)

/-- Character-level body of `extract_text_from_vtt`. -/
def normChars (l : List Char) : List Char :=
  joinNL (vttCore (splitNL l) none)

/-- Embedding of `CaptionDownloader.extract_text_from_vtt`. -/
def extract_text_from_vtt (s : String) : String :=
  String.mk (normChars s.data)

/-- Specification-side view of a single line: the retained text when the
line survives the skip tests and tag stripping, `none` otherwise. -/
def lineCandidate (raw : List Char) : Option (List Char) :=
  let line := pyStrip raw
  if skipLine1 line then none
  else if skipInlineTs line then none
  else
    let line2 := pyStrip (stripTags line)
    if line2.isEmpty then none else some line2

/-- Specification-side collapse of consecutive duplicates, keyed on the last
retained element. -/
def dedupFrom : Option (List Char) → List (List Char) → List (List Char)
  | _, [] => []
  | prev, a :: l =>
    if prev = some a then dedupFrom prev l else a :: dedupFrom (some a) l

/-- The loop equals filtering each line to its retained candidate followed by
the collapse of consecutive duplicates. -/
theorem vttCore_eq_dedup :
    ∀ (ls : List (List Char)) (prev : Option (List Char)),
      vttCore ls prev = dedupFrom prev (ls.filterMap lineCandidate) := by
  intro ls
  induction ls with
    | nil => intro prev; rfl
    | cons raw rest ih =>
      intro prev
      by_cases h1 : skipLine1 (pyStrip raw) = true
      · simp only [vttCore, lineCandidate, List.filterMap_cons, h1, if_true]
        exact ih prev
      · by_cases h2 : skipInlineTs (pyStrip raw) = true
        · simp only [vttCore, lineCandidate, List.filterMap_cons, h1, h2,
            if_true, Bool.false_eq_true, if_false]
          exact ih prev
        · by_cases h3 : (pyStrip (stripTags (pyStrip raw))).isEmpty = true
          · simp only [vttCore, lineCandidate, List.filterMap_cons, h1, h2, h3,
              if_true, Bool.false_eq_true, if_false]
            exact ih prev
          · simp only [vttCore, lineCandidate, List.filterMap_cons, h1, h2, h3,
              Bool.false_eq_true, if_false, dedupFrom]
            by_cases h4 : prev = some (pyStrip (stripTags (pyStrip raw)))
            · simp only [h4, if_true, if_pos rfl]
              exact ih _
            · rw [if_neg h4, if_neg h4]
              rw [ih _]

/-- C9: the loop retains exactly the surviving lines in original order and
discards a retained line only when it equals the immediately preceding
retained one; non-adjacent repeats are kept, as on the
`Hello/Hello/World/Hello` fixture. -/
theorem vtt_collapses_only_adjacent_duplicates :
    (∀ (ls : List (List Char)) (prev : Option (List Char)),
      vttCore ls prev = dedupFrom prev (ls.filterMap lineCandidate)) ∧
    extract_text_from_vtt "Hello\nHello\nWorld\nHello" = "Hello\nWorld\nHello" :=
  ⟨vttCore_eq_dedup, by decide⟩

/-!
### Facts about stripping, splitting and joining used for the idempotence
analysis of the caption normalizer.
-/

theorem dropWhile_eq_self_of_head (p : Char → Bool) (l : List Char)
    (h : ∀ c, l.head? = some c → p c = false) : l.dropWhile p = l := by
  cases l with
  | nil => rfl
  | cons a t =>
    apply List.dropWhile_cons_of_neg
    simp [h a rfl]

theorem stripBy_getLast_false (p : Char → Bool) (l : List Char) (c : Char)
    (hc : (pyStripBy p l).getLast? = some c) : p c = false := by
  unfold pyStripBy at hc
  rw [List.getLast?_reverse] at hc
  have h2 := List.head?_dropWhile_not p (l.dropWhile p).reverse
  rw [hc] at h2
  exact h2

theorem stripBy_head_false (p : Char → Bool) (l : List Char) (c : Char)
    (hc : (pyStripBy p l).head? = some c) : p c = false := by
  have hc0 := hc
  unfold pyStripBy at hc
  rw [List.head?_reverse] at hc
  rcases List.dropWhile_suffix (l := (l.dropWhile p).reverse) p with ⟨u, hu⟩
  cases hw : (List.dropWhile p (l.dropWhile p).reverse).getLast? with
  | none =>
    have hwnil := List.getLast?_eq_none_iff.mp hw
    have : pyStripBy p l = [] := by
      unfold pyStripBy
      rw [hwnil]
      rfl
    rw [this] at hc0
    exact absurd hc0 (by simp)
  | some d =>
    have hdc : d = c := by
      rw [hw] at hc
      exact Option.some_injective _ hc
    have hm : ((l.dropWhile p).reverse).getLast? = some c := by
      rw [← hu, List.getLast?_append, hw, hdc]
      rfl
    rw [List.getLast?_reverse] at hm
    have h2 := List.head?_dropWhile_not p l
    rw [hm] at h2
    exact h2

theorem stripBy_idem (p : Char → Bool) (l : List Char) :
    pyStripBy p (pyStripBy p l) = pyStripBy p l := by
  have h1 : (pyStripBy p l).dropWhile p = pyStripBy p l :=
    dropWhile_eq_self_of_head p _ (fun c hc => stripBy_head_false p l c hc)
  have h2 : (pyStripBy p l).reverse.dropWhile p = (pyStripBy p l).reverse :=
    dropWhile_eq_self_of_head p _ (fun c hc => by
      rw [List.head?_reverse] at hc
      exact stripBy_getLast_false p l c hc)
  conv_lhs => rw [pyStripBy, h1, h2, List.reverse_reverse]

theorem stripBy_isInfix_self (p : Char → Bool) (l : List Char) : pyStripBy p l <:+: l := by
  rcases List.dropWhile_suffix (l := (l.dropWhile p).reverse) p with ⟨u, hu⟩
  rcases List.dropWhile_suffix (l := l) p with ⟨t, ht⟩
  refine ⟨t, u.reverse, ?_⟩
  have hmid : pyStripBy p l ++ u.reverse = l.dropWhile p := by
    unfold pyStripBy
    rw [← List.reverse_append, hu, List.reverse_reverse]
  rw [List.append_assoc, hmid, ht]

theorem stripBy_mem (p : Char → Bool) (l : List Char) (c : Char)
    (hc : c ∈ pyStripBy p l) : c ∈ l :=
  (stripBy_isInfix_self p l).subset hc

theorem splitNL_ne_nil : ∀ l : List Char, splitNL l ≠ [] := by
  intro l
  cases l with
  | nil => simp [splitNL]
  | cons c rest =>
    simp only [splitNL]
    split
    · simp
    · cases h : splitNL rest <;> simp

theorem mem_splitNL_no_newline :
    ∀ (l : List Char) (s : List Char), s ∈ splitNL l → '\n' ∉ s := by
  intro l
  induction l with
  | nil =>
    intro s hs
    simp only [splitNL, List.mem_singleton] at hs
    subst hs
    simp
  | cons c rest ih =>
    intro s hs
    by_cases hc : c = '\n'
    · rw [show splitNL (c :: rest) = [] :: splitNL rest by
        simp [splitNL, hc]] at hs
      rcases List.mem_cons.mp hs with rfl | hs2
      · simp
      · exact ih s hs2
    · rw [show splitNL (c :: rest) = (match splitNL rest with
        | [] => [[c]]
        | p :: ps => (c :: p) :: ps) by simp [splitNL, hc]] at hs
      cases hsp : splitNL rest with
      | nil =>
        rw [hsp] at hs
        simp only [List.mem_singleton] at hs
        subst hs
        simp [hc]
        exact fun h => hc h.symm
      | cons q qs =>
        rw [hsp] at hs
        rcases List.mem_cons.mp hs with rfl | hs2
        · intro hmem
          rcases List.mem_cons.mp hmem with h | h
          · exact hc h.symm
          · exact ih q (by rw [hsp]; exact List.mem_cons_self q qs) h
        · exact ih s (by rw [hsp]; exact List.mem_cons_of_mem q hs2)

theorem splitNL_no_newline (l : List Char) (h : '\n' ∉ l) : splitNL l = [l] := by
  induction l with
  | nil => rfl
  | cons c rest ih =>
    have hc : ¬(c = '\n') := fun he => h (he ▸ List.mem_cons_self c rest)
    have h2 : '\n' ∉ rest := fun hm => h (List.mem_cons_of_mem c hm)
    simp only [splitNL, if_neg hc, ih h2]

theorem splitNL_append_newline (a rest : List Char) (h : '\n' ∉ a) :
    splitNL (a ++ '\n' :: rest) = a :: splitNL rest := by
  induction a with
  | nil => simp [splitNL]
  | cons c a' ih =>
    have hc : ¬(c = '\n') := fun he => h (he ▸ List.mem_cons_self c a')
    have h2 : '\n' ∉ a' := fun hm => h (List.mem_cons_of_mem c hm)
    simp only [List.cons_append, splitNL, if_neg hc]
    rw [show a'.append ('\n' :: rest) = a' ++ '\n' :: rest from rfl, ih h2]

theorem splitNL_joinNL :
    ∀ ls : List (List Char), ls ≠ [] → (∀ s ∈ ls, '\n' ∉ s) →
      splitNL (joinNL ls) = ls := by
  intro ls
  induction ls with
  | nil => intro h; exact absurd rfl h
  | cons l ls ih =>
    intro _ h
    cases ls with
    | nil =>
      simp only [joinNL]
      exact splitNL_no_newline l (h l (List.mem_cons_self l []))
    | cons l2 ls2 =>
      have hjoin : joinNL (l :: l2 :: ls2) = l ++ '\n' :: joinNL (l2 :: ls2) := rfl
      rw [hjoin, splitNL_append_newline l _ (h l (List.mem_cons_self l _)),
        ih (by simp) (fun s hs => h s (List.mem_cons_of_mem l hs))]

/-- Decidable occurrence of the pattern `<[^>]+>`: some position starts with
`<`, followed by at least one character other than `>`, followed later by a
`>`. -/
def hasTagB : List Char → Bool
  | [] => false
  | c :: rest =>
    (decide (c = '<') && (match rest with
      | [] => false
      | d :: r => decide (d ≠ '>') && decide ('>' ∈ r))) || hasTagB rest

/-- Existential form of a `<[^>]+>` occurrence. -/
def HasTagE (l : List Char) : Prop :=
  ∃ a d m b, l = a ++ '<' :: d :: (m ++ '>' :: b) ∧ d ≠ '>'

theorem hasTagE_of_append :
    ∀ (a : List Char) (d : Char) (m b : List Char), d ≠ '>' →
      hasTagB (a ++ '<' :: d :: (m ++ '>' :: b)) = true := by
  intro a
  induction a with
  | nil =>
    intro d m b hd
    simp [hasTagB, hd]
  | cons x a' ih =>
    intro d m b hd
    simp only [List.cons_append, hasTagB, Bool.or_eq_true]
    exact Or.inr (ih d m b hd)

theorem hasTagB_iff (l : List Char) : hasTagB l = true ↔ HasTagE l := by
  constructor
  · intro h
    induction l with
    | nil => simp [hasTagB] at h
    | cons c rest ih =>
      simp only [hasTagB, Bool.or_eq_true] at h
      rcases h with h | h
      · rcases Bool.and_eq_true_iff.mp h with ⟨hc, hrest⟩
        have hc2 : c = '<' := of_decide_eq_true hc
        cases rest with
        | nil => simp at hrest
        | cons d r =>
          rcases Bool.and_eq_true_iff.mp hrest with ⟨hd, hr⟩
          have hd2 : d ≠ '>' := of_decide_eq_true hd
          have hr2 : '>' ∈ r := of_decide_eq_true hr
          rcases List.append_of_mem hr2 with ⟨s, t, hst⟩
          exact ⟨[], d, s, t, by rw [hc2, hst]; rfl, hd2⟩
      · rcases ih h with ⟨a, d, m, b, heq, hd⟩
        exact ⟨c :: a, d, m, b, by rw [heq]; rfl, hd⟩
  · rintro ⟨a, d, m, b, rfl, hd⟩
    exact hasTagE_of_append a d m b hd

theorem hasTagE_infix {s l : List Char} (hs : HasTagE s) (hinf : s <:+: l) :
    HasTagE l := by
  rcases hs with ⟨a, d, m, b, rfl, hd⟩
  rcases hinf with ⟨u, v, rfl⟩
  exact ⟨u ++ a, d, m, b ++ v, by simp, hd⟩

theorem hasTagB_cons_ne (c : Char) (l : List Char) (h : ¬(c = '<')) :
    hasTagB (c :: l) = hasTagB l := by
  cases l with
  | nil => simp [hasTagB, h]
  | cons d r =>
    show ((decide (c = '<') && (decide (d ≠ '>') && decide ('>' ∈ r))) ||
      hasTagB (d :: r)) = hasTagB (d :: r)
    simp [h]

theorem hasTagB_two (c d : Char) (r : List Char) :
    hasTagB (c :: d :: r) =
      ((decide (c = '<') && (decide (d ≠ '>') && decide ('>' ∈ r))) ||
        hasTagB (d :: r)) := rfl

theorem noTag_of_no_gt : ∀ w : List Char, '>' ∉ w → hasTagB w = false := by
  intro w
  induction w with
  | nil => intro _; rfl
  | cons c rest ih =>
    intro h
    have h1 : '>' ∉ rest := fun hm => h (List.mem_cons_of_mem c hm)
    cases rest with
    | nil => simp [hasTagB]
    | cons d r =>
      have h2 : '>' ∉ r := fun hm => h1 (List.mem_cons_of_mem d hm)
      rw [hasTagB_two, ih h1]
      simp [h2]

theorem stGo_mem :
    ∀ l : List Char,
      (∀ c, c ∈ stGo none l → c ∈ l) ∧
      (∀ b c, c ∈ stGo (some b) l → c = '<' ∨ c ∈ b ∨ c ∈ l) := by
  intro l
  induction l with
  | nil =>
    refine ⟨fun c hc => absurd hc (by simp [stGo]), fun b c hc => ?_⟩
    simp only [stGo] at hc
    rcases List.mem_cons.mp hc with rfl | hc2
    · exact Or.inl rfl
    · exact Or.inr (Or.inl (List.mem_reverse.mp hc2))
  | cons x rest ih =>
    constructor
    · intro c hc
      by_cases hx : x = '<'
      · rw [show stGo none (x :: rest) = stGo (some []) rest by
          simp [stGo, hx]] at hc
        rcases ih.2 [] c hc with rfl | hc2 | hc3
        · exact hx ▸ List.mem_cons_self x rest
        · exact absurd hc2 (by simp)
        · exact List.mem_cons_of_mem x hc3
      · rw [show stGo none (x :: rest) = x :: stGo none rest by
          simp [stGo, hx]] at hc
        rcases List.mem_cons.mp hc with rfl | hc2
        · exact List.mem_cons_self c rest
        · exact List.mem_cons_of_mem x (ih.1 c hc2)
    · intro b c hc
      by_cases hx : x = '>'
      · by_cases hb : b.isEmpty = true
        · rw [show stGo (some b) (x :: rest) = '<' :: '>' :: stGo none rest by
            simp [stGo, hx, hb]] at hc
          rcases List.mem_cons.mp hc with rfl | hc2
          · exact Or.inl rfl
          · rcases List.mem_cons.mp hc2 with rfl | hc3
            · exact Or.inr (Or.inr (hx ▸ List.mem_cons_self x rest))
            · exact Or.inr (Or.inr (List.mem_cons_of_mem x (ih.1 c hc3)))
        · rw [show stGo (some b) (x :: rest) = stGo none rest by
            simp [stGo, hx, hb]] at hc
          exact Or.inr (Or.inr (List.mem_cons_of_mem x (ih.1 c hc)))
      · rw [show stGo (some b) (x :: rest) = stGo (some (x :: b)) rest by
          simp [stGo, hx]] at hc
        rcases ih.2 (x :: b) c hc with rfl | hc2 | hc3
        · exact Or.inl rfl
        · rcases List.mem_cons.mp hc2 with rfl | hc4
          · exact Or.inr (Or.inr (List.mem_cons_self c rest))
          · exact Or.inr (Or.inl hc4)
        · exact Or.inr (Or.inr (List.mem_cons_of_mem x hc3))

theorem stGo_clean :
    ∀ (n : Nat) (l : List Char), l.length ≤ n →
      (hasTagB (stGo none l) = false) ∧
      (∀ b, '>' ∉ b → hasTagB (stGo (some b) l) = false) := by
  intro n
  induction n with
  | zero =>
    intro l hl
    have hnil : l = [] := List.eq_nil_of_length_eq_zero (Nat.le_zero.mp hl)
    subst hnil
    refine ⟨rfl, fun b hb => ?_⟩
    apply noTag_of_no_gt
    intro hmem
    rcases List.mem_cons.mp hmem with h | h
    · exact absurd h.symm (by decide)
    · exact hb (List.mem_reverse.mp h)
  | succ n ih =>
    intro l hl
    cases l with
    | nil =>
      refine ⟨rfl, fun b hb => ?_⟩
      apply noTag_of_no_gt
      intro hmem
      rcases List.mem_cons.mp hmem with h | h
      · exact absurd h.symm (by decide)
      · exact hb (List.mem_reverse.mp h)
    | cons x rest =>
      have hrest : rest.length ≤ n := Nat.le_of_succ_le_succ (by simpa using hl)
      constructor
      · by_cases hx : x = '<'
        · rw [show stGo none (x :: rest) = stGo (some []) rest by simp [stGo, hx]]
          exact (ih rest hrest).2 [] (by simp)
        · rw [show stGo none (x :: rest) = x :: stGo none rest by simp [stGo, hx]]
          rw [hasTagB_cons_ne x _ hx]
          exact (ih rest hrest).1
      · intro b hb
        by_cases hx : x = '>'
        · by_cases hbe : b.isEmpty = true
          · rw [show stGo (some b) (x :: rest) = '<' :: '>' :: stGo none rest by
              simp [stGo, hx, hbe]]
            rw [hasTagB_two, hasTagB_cons_ne '>' _ (by decide), (ih rest hrest).1]
            simp
          · rw [show stGo (some b) (x :: rest) = stGo none rest by
              simp [stGo, hx, hbe]]
            exact (ih rest hrest).1
        · rw [show stGo (some b) (x :: rest) = stGo (some (x :: b)) rest by
            simp [stGo, hx]]
          refine (ih rest hrest).2 (x :: b) ?_
          intro hmem
          rcases List.mem_cons.mp hmem with h | h
          · exact hx h.symm
          · exact hb h

/-- Output of the tag-stripping pass contains no tag pattern. -/
theorem stripTags_clean (l : List Char) : hasTagB (stripTags l) = false :=
  (stGo_clean l.length l le_rfl).1

theorem stGo_some_no_gt :
    ∀ (l : List Char) (b : List Char), '>' ∉ l →
      stGo (some b) l = '<' :: (b.reverse ++ l) := by
  intro l
  induction l with
  | nil => intro b _; simp [stGo]
  | cons x rest ih =>
    intro b h
    have hx : ¬(x = '>') := fun he => h (he ▸ List.mem_cons_self x rest)
    rw [show stGo (some b) (x :: rest) = stGo (some (x :: b)) rest by
      simp [stGo, hx]]
    rw [ih (x :: b) (fun hm => h (List.mem_cons_of_mem x hm))]
    simp

theorem stGo_none_id :
    ∀ (n : Nat) (l : List Char), l.length ≤ n → hasTagB l = false →
      stGo none l = l := by
  intro n
  induction n with
  | zero =>
    intro l hl _
    have hnil : l = [] := List.eq_nil_of_length_eq_zero (Nat.le_zero.mp hl)
    subst hnil
    rfl
  | succ n ih =>
    intro l hl ht
    cases l with
    | nil => rfl
    | cons x rest =>
      have hrest : rest.length ≤ n := Nat.le_of_succ_le_succ (by simpa using hl)
      by_cases hx : x = '<'
      · subst hx
        cases rest with
        | nil => simp [stGo]
        | cons d r =>
          by_cases hd : d = '>'
          · subst hd
            have ht' : hasTagB r = false := by
              rw [hasTagB_two] at ht
              simp only [Bool.or_eq_false_iff] at ht
              have := ht.2
              rwa [hasTagB_cons_ne '>' r (by decide)] at this
            rw [show stGo none ('<' :: '>' :: r) = '<' :: '>' :: stGo none r by
              simp [stGo]]
            rw [ih r (by simp at hrest; omega) ht']
          · have hng : '>' ∉ r := by
              rw [hasTagB_two] at ht
              simp only [Bool.or_eq_false_iff] at ht
              have h1 := ht.1
              simp only [decide_True, Bool.true_and, ne_eq, hd,
                not_false_iff, Bool.and_eq_false_iff,
                decide_eq_false_iff_not] at h1
              exact h1
            rw [show stGo none ('<' :: d :: r) = stGo (some []) (d :: r) by
              simp [stGo]]
            rw [stGo_some_no_gt (d :: r) []
              (fun hm => by
                rcases List.mem_cons.mp hm with h | h
                · exact hd h.symm
                · exact hng h)]
            rfl
      · have ht' : hasTagB rest = false := by
          rwa [hasTagB_cons_ne x rest hx] at ht
        rw [show stGo none (x :: rest) = x :: stGo none rest by simp [stGo, hx]]
        rw [ih rest hrest ht']

/-- A string without the tag pattern is a fixed point of the stripping
pass. -/
theorem stripTags_id_of_clean (l : List Char) (h : hasTagB l = false) :
    stripTags l = l :=
  stGo_none_id l.length l le_rfl h

/-- Stripping the whitespace off a stripped-tags result leaves a fixed point
of tag stripping. -/
theorem stripTags_strip_output (z : List Char) :
    stripTags (pyStrip (stripTags z)) = pyStrip (stripTags z) := by
  apply stripTags_id_of_clean
  rcases Bool.eq_false_or_eq_true (hasTagB (pyStrip (stripTags z))) with h | h
  swap
  · exact h
  · exfalso
    have hE := (hasTagB_iff _).mp h
    have hinf : pyStrip (stripTags z) <:+: stripTags z := stripBy_isInfix_self pySpace _
    have hE2 := hasTagE_infix hE hinf
    have h3 := (hasTagB_iff (stripTags z)).mpr hE2
    rw [stripTags_clean z] at h3
    exact absurd h3 (by simp)

theorem dedupFrom_subset :
    ∀ (l : List (List Char)) (prev : Option (List Char)) (x : List Char),
      x ∈ dedupFrom prev l → x ∈ l := by
  intro l
  induction l with
  | nil => intro prev x hx; exact absurd hx (by simp [dedupFrom])
  | cons a t ih =>
    intro prev x hx
    simp only [dedupFrom] at hx
    by_cases hp : prev = some a
    · rw [if_pos hp] at hx
      exact List.mem_cons_of_mem a (ih prev x hx)
    · rw [if_neg hp] at hx
      rcases List.mem_cons.mp hx with rfl | hx2
      · exact List.mem_cons_self x t
      · exact List.mem_cons_of_mem a (ih (some a) x hx2)

theorem dedupFrom_chain :
    ∀ (l : List (List Char)) (prev : Option (List Char)),
      List.Chain' (· ≠ ·) (dedupFrom prev l) ∧
      (∀ h, (dedupFrom prev l).head? = some h → prev ≠ some h) := by
  intro l
  induction l with
  | nil => intro prev; exact ⟨List.chain'_nil, by simp [dedupFrom]⟩
  | cons a t ih =>
    intro prev
    simp only [dedupFrom]
    by_cases hp : prev = some a
    · rw [if_pos hp]
      exact ih prev
    · rw [if_neg hp]
      constructor
      · rw [List.chain'_cons']
        refine ⟨?_, (ih (some a)).1⟩
        intro y hy
        have := (ih (some a)).2 y hy
        intro he
        exact this (by rw [he])
      · intro h hh
        have : h = a := by
          simp only [List.head?_cons] at hh
          exact (Option.some_injective _ hh).symm
        rw [this]
        exact hp

theorem dedupFrom_id :
    ∀ (l : List (List Char)) (prev : Option (List Char)),
      List.Chain' (· ≠ ·) l → (∀ h, l.head? = some h → prev ≠ some h) →
      dedupFrom prev l = l := by
  intro l
  induction l with
  | nil => intro prev _ _; rfl
  | cons a t ih =>
    intro prev hch hh
    have hp : ¬(prev = some a) := hh a (by simp)
    simp only [dedupFrom, if_neg hp]
    rcases List.chain'_cons'.mp hch with ⟨hhead, htail⟩
    rw [ih (some a) htail ?_]
    intro y hy hcon
    exact hhead y hy (Option.some_injective _ hcon)

theorem lineCandidate_eq_some {raw x : List Char}
    (h : lineCandidate raw = some x) :
    x = pyStrip (stripTags (pyStrip raw)) ∧
    skipLine1 (pyStrip raw) = false ∧
    skipInlineTs (pyStrip raw) = false ∧ x ≠ [] := by
  unfold lineCandidate at h
  simp only [] at h
  by_cases h1 : skipLine1 (pyStrip raw) = true
  · rw [if_pos h1] at h
    exact absurd h (by simp)
  · rw [if_neg h1] at h
    by_cases h2 : skipInlineTs (pyStrip raw) = true
    · rw [if_pos h2] at h
      exact absurd h (by simp)
    · rw [if_neg h2] at h
      by_cases h3 : (pyStrip (stripTags (pyStrip raw))).isEmpty = true
      · rw [if_pos h3] at h
        exact absurd h (by simp)
      · rw [if_neg h3] at h
        have hx := (Option.some_injective _ h).symm
        subst hx
        refine ⟨rfl, by simpa using h1, by simpa using h2, ?_⟩
        exact List.isEmpty_eq_false.mp (by simpa using h3)

theorem lineCandidate_self {x : List Char}
    (h1 : skipLine1 x = false) (h2 : skipInlineTs x = false)
    (hs : pyStrip x = x) (ht : stripTags x = x) (hne : x ≠ []) :
    lineCandidate x = some x := by
  unfold lineCandidate
  simp only [hs, ht, h1, h2, Bool.false_eq_true, if_false]
  rw [if_neg]
  simp [hne]

theorem filterMap_lineCandidate_self :
    ∀ l : List (List Char), (∀ x ∈ l, lineCandidate x = some x) →
      l.filterMap lineCandidate = l := by
  intro l
  induction l with
  | nil => intro _; rfl
  | cons a t ih =>
    intro h
    rw [List.filterMap_cons, h a (List.mem_cons_self a t),
      ih (fun x hx => h x (List.mem_cons_of_mem a hx))]

/-- Every line produced by the loop is the trimmed tag-stripped form of some
input line: it is nonempty, a fixed point of trimming and of tag stripping,
and contains no character outside its source line. -/
theorem vttCore_line_props {ls : List (List Char)} {prev : Option (List Char)}
    {y : List Char} (hy : y ∈ vttCore ls prev) :
    (∃ raw, raw ∈ ls ∧ y = pyStrip (stripTags (pyStrip raw))) ∧
    pyStrip y = y ∧ stripTags y = y ∧ y ≠ [] := by
  rw [vttCore_eq_dedup] at hy
  have hy2 := dedupFrom_subset _ _ _ hy
  rcases List.mem_filterMap.mp hy2 with ⟨raw, hraw, hcand⟩
  rcases lineCandidate_eq_some hcand with ⟨hform, _, _, hne⟩
  subst hform
  refine ⟨⟨raw, hraw, rfl⟩, ?_, ?_, hne⟩
  · exact stripBy_idem pySpace _
  · exact stripTags_strip_output _

/-- On a list of lines that are fixed points of trimming and tag stripping,
each retained line is itself an input line that passes both skip tests. -/
theorem vttCore_mem_of_fixed {ls : List (List Char)} {prev : Option (List Char)}
    (hfix : ∀ x ∈ ls, pyStrip x = x ∧ stripTags x = x)
    {y : List Char} (hy : y ∈ vttCore ls prev) :
    y ∈ ls ∧ skipLine1 y = false ∧ skipInlineTs y = false ∧ y ≠ [] := by
  rw [vttCore_eq_dedup] at hy
  have hy2 := dedupFrom_subset _ _ _ hy
  rcases List.mem_filterMap.mp hy2 with ⟨raw, hraw, hcand⟩
  rcases lineCandidate_eq_some hcand with ⟨hform, hs1, hs2, hne⟩
  rcases hfix raw hraw with ⟨hstrip, htags⟩
  have hyraw : y = raw := by
    rw [hform, hstrip, htags, hstrip]
  subst hyraw
  rw [hstrip] at hs1 hs2
  exact ⟨hraw, hs1, hs2, hne⟩

/-- On a list of lines all of which pass the skip tests, are fixed points of
the transforms, are nonempty, and have no consecutive duplicates, the loop is
the identity. -/
theorem vttCore_id {ls : List (List Char)} {prev : Option (List Char)}
    (hprops : ∀ x ∈ ls, skipLine1 x = false ∧ skipInlineTs x = false ∧
      pyStrip x = x ∧ stripTags x = x ∧ x ≠ [])
    (hch : List.Chain' (· ≠ ·) ls)
    (hh : ∀ h, ls.head? = some h → prev ≠ some h) :
    vttCore ls prev = ls := by
  rw [vttCore_eq_dedup]
  rw [filterMap_lineCandidate_self ls (fun x hx => by
    rcases hprops x hx with ⟨h1, h2, h3, h4, h5⟩
    exact lineCandidate_self h1 h2 h3 h4 h5)]
  exact dedupFrom_id ls prev hch hh

theorem normChars_no_newline {x y : List Char}
    (hy : y ∈ vttCore (splitNL x) none) : '\n' ∉ y := by
  rcases (vttCore_line_props hy).1 with ⟨raw, hraw, hform⟩
  intro hmem
  rw [hform] at hmem
  have h1 := stripBy_mem pySpace _ _ hmem
  have h2 := (stGo_mem (pyStrip raw)).1 _ h1
  have h3 := stripBy_mem pySpace _ _ h2
  exact mem_splitNL_no_newline x raw hraw h3

theorem normChars_nil : normChars ([] : List Char) = [] := by decide

/-- Second-level idempotence of the normalizer body: from the second
application onward the text is stable. -/
theorem normChars_triple (x : List Char) :
    normChars (normChars (normChars x)) = normChars (normChars x) := by
  by_cases h1 : vttCore (splitNL x) none = []
  · have hx1 : normChars x = [] := by rw [normChars, h1]; rfl
    rw [hx1, normChars_nil, normChars_nil]
  · have hL1nl : ∀ y ∈ vttCore (splitNL x) none, '\n' ∉ y :=
      fun y hy => normChars_no_newline hy
    have hsplit1 : splitNL (normChars x) = vttCore (splitNL x) none := by
      rw [normChars]
      exact splitNL_joinNL _ h1 hL1nl
    have hn2 : normChars (normChars x) =
        joinNL (vttCore (vttCore (splitNL x) none) none) := by
      conv_lhs => rw [normChars, hsplit1]
    by_cases h2 : vttCore (vttCore (splitNL x) none) none = []
    · rw [hn2, h2]
      show normChars ([] : List Char) = joinNL ([] : List (List Char))
      rw [normChars_nil]
      rfl
    · have hL2sub : ∀ y ∈ vttCore (vttCore (splitNL x) none) none,
          y ∈ vttCore (splitNL x) none ∧ skipLine1 y = false ∧
          skipInlineTs y = false ∧ y ≠ [] :=
        fun y hy => vttCore_mem_of_fixed
          (fun z hz => ⟨(vttCore_line_props hz).2.1, (vttCore_line_props hz).2.2.1⟩) hy
      have hL2nl : ∀ y ∈ vttCore (vttCore (splitNL x) none) none, '\n' ∉ y :=
        fun y hy => hL1nl y (hL2sub y hy).1
      have hsplit2 : splitNL (normChars (normChars x)) =
          vttCore (vttCore (splitNL x) none) none := by
        rw [hn2]
        exact splitNL_joinNL _ h2 hL2nl
      have hid : vttCore (vttCore (vttCore (splitNL x) none) none) none =
          vttCore (vttCore (splitNL x) none) none := by
        apply vttCore_id
        · intro y hy
          rcases hL2sub y hy with ⟨hyL1, hs1, hs2, hne⟩
          rcases vttCore_line_props hyL1 with ⟨_, hstrip, htags, _⟩
          exact ⟨hs1, hs2, hstrip, htags, hne⟩
        · rw [vttCore_eq_dedup]
          exact (dedupFrom_chain _ none).1
        · intro h _
          simp
      conv_lhs => rw [normChars, hsplit2, hid]
      rw [hn2]

/-- C5 (amended): the caption normalizer is idempotent from the second
application onward — `normalize (normalize (normalize x)) =
normalize (normalize x)` for every input; a single application is not a fixed
point in general, because stripping inline tags can uncover a line that the
skip tests would have discarded. -/
theorem extract_text_double_idempotent (s : String) :
    extract_text_from_vtt (extract_text_from_vtt (extract_text_from_vtt s)) =
    extract_text_from_vtt (extract_text_from_vtt s) := by
  show String.mk (normChars (normChars (normChars s.data))) =
    String.mk (normChars (normChars s.data))
  rw [normChars_triple]

/-- C5 counterexample: `<i>WEBVTT</i>` normalizes to `WEBVTT`, which a second
pass deletes as a header line, so `normalize (normalize x) ≠ normalize x`. -/
theorem extract_text_not_idempotent :
    extract_text_from_vtt (extract_text_from_vtt "<i>WEBVTT</i>") ≠
    extract_text_from_vtt "<i>WEBVTT</i>" := by
  decide

/-!
## caption_downloader.py : batch download

The filesystem under the output directory is the list of file names present;
writing a file conses its name.  The YouTube service is an abstract provider:
`title` is `get_video_title` (which turns both the 404 `ValueError` and other
`HttpError` wrappers into generic exceptions), `tracks` is
`list_caption_tracks` (the only call that can raise `PermissionError`, on
HTTP 403; 404 and the rest surface as generic exceptions), `download` is the
raw `captions().download` call keyed by caption id and download format (its
failures are re-raised by `download_caption` as generic exceptions). -/

/-- Exception kind reaching the per-item handlers of the batch loop. -/
inductive PyExc where
  | permissionError
  | otherError
deriving DecidableEq

/-- One entry of the caption-track listing; `id` is accessed directly by the
source, the snippet fields through `.get`. -/
structure CaptionTrack where
  language : Option (List Char)
  trackKind : Option (List Char)
  id : List Char
deriving DecidableEq

/-- The external caption service. -/
structure CaptionProvider where
  title : List Char → Except Unit (List Char)
  tracks : List Char → Except PyExc (List CaptionTrack)
  download : List Char → List Char → Except Unit (List Char)

/-- The loop of `find_caption_track`: first listed track whose language
matches and whose kind is `asr`. -/
def findAsrTrack (items : List CaptionTrack) (lang : List Char) :
    Option CaptionTrack :=
  items.find? (fun t =>
    decide (t.language = some lang) && decide (t.trackKind = some ("asr".toList)))

/-- `download_caption`: `txt` is fetched as `vtt` and passed through
`extract_text_from_vtt`. -/
def download_caption (P : CaptionProvider) (capid fmt : List Char) :
    Except Unit (List Char) :=
  let dfmt := if fmt = "txt".toList then "vtt".toList else fmt
  match P.download capid dfmt with
  | .error e => .error e
  | .ok content => .ok (if fmt = "txt".toList then normChars content else content)

/-- Characters replaced by `_` in `sanitize_filename`. -/
def invalidFilenameChar (c : Char) : Bool :=
  c = '<' || c = '>' || c = ':' || c = '"' || c = '/' || c = '\\' ||
  c = '|' || c = '?' || c = '*'

/-- Embedding of `sanitize_filename`: replace illegal characters, cap at 200,
strip dots and spaces from both ends. -/
def sanitize_filename (title : List Char) : List Char :=
  pyStripBy (fun c => c = '.' || c = ' ')
    ((title.map (fun c => if invalidFilenameChar c then '_' else c)).take 200)

/-- The glob tail `_{video_id}.{format}`; the leading `*` of the glob is any
(possibly empty) prefix, so a name matches exactly when this is a suffix. -/
def captionPattern (vid fmt : List Char) : List Char :=
  '_' :: (vid ++ '.' :: fmt)

/-- Embedding of `caption_file_exists`: some stored name matches
`*_{video_id}.{format}`. -/
def caption_file_exists (fs : List (List Char)) (vid fmt : List Char) : Bool :=
  fs.any (fun f => decide (captionPattern vid fmt <:+ f))

/-- Embedding of `save_caption`: derive the name, refuse to overwrite,
otherwise write (the content itself is not part of the modelled store). -/
def save_caption (fs : List (List Char)) (_content vid title fmt : List Char) :
    Option (List Char) × List (List Char) :=
  let fn := sanitize_filename title ++ captionPattern vid fmt
  if fn ∈ fs then (none, fs) else (some fn, fn :: fs)

/-- Outcome category of one iteration of the batch loop. -/
inductive BatchOutcome where
  | successful
  | failed
  | noCaptions
  | skipped
  | permissionDenied
deriving DecidableEq

/-- One iteration of `download_captions_batch` for a single video id:
existence check first, then metadata, track listing, download and save, each
failure caught and categorised; the third component records the provider
calls made. -/
def processOne (P : CaptionProvider) (fs : List (List Char))
    (vid lang fmt : List Char) :
    BatchOutcome × List (List Char) × List (List Char) :=
  if caption_file_exists fs vid fmt then (.skipped, fs, [])
  else
    match P.title vid with
    | .error _ => (.failed, fs, [vid])
    | .ok title =>
      match P.tracks vid with
      | .error .permissionError => (.permissionDenied, fs, [vid, vid])
      | .error .otherError => (.failed, fs, [vid, vid])
      | .ok items =>
        match findAsrTrack items lang with
        | none => (.noCaptions, fs, [vid, vid])
        | some track =>
          if track.id.isEmpty then (.noCaptions, fs, [vid, vid])
          else
            match download_caption P track.id fmt with
            | .error _ => (.failed, fs, [vid, vid, track.id])
            | .ok content =>
              match save_caption fs content vid title fmt with
              | (some _, fs2) => (.successful, fs2, [vid, vid, track.id])
              | (none, fs2) => (.skipped, fs2, [vid, vid, track.id])

/-- The statistics dictionary of `download_captions_batch`. -/
structure BatchStats where
  successful : Nat
  failed : Nat
  no_captions : Nat
  skipped : Nat
  permission_denied : Nat
  failed_ids : List (List Char)
  no_captions_ids : List (List Char)
  permission_denied_ids : List (List Char)
deriving DecidableEq

/-- The initial statistics dictionary. -/
def initStats : BatchStats := ⟨0, 0, 0, 0, 0, [], [], []⟩

/-- The per-iteration statistics update of each branch of the loop. -/
def applyOutcome (s : BatchStats) (vid : List Char) :
    BatchOutcome → BatchStats
  | .successful => { s with successful := s.successful + 1 }
  | .failed =>
    { s with failed := s.failed + 1, failed_ids := s.failed_ids ++ [vid] }
  | .noCaptions =>
    { s with
      no_captions := s.no_captions + 1
      no_captions_ids := s.no_captions_ids ++ [vid] }
  | .skipped => { s with skipped := s.skipped + 1 }
  | .permissionDenied =>
    { s with
      permission_denied := s.permission_denied + 1
      permission_denied_ids := s.permission_denied_ids ++ [vid] }

/-- Embedding of `download_captions_batch`: fold the loop body over the video
ids in list order, threading the file store and the statistics. -/
def download_captions_batch (P : CaptionProvider) (lang fmt : List Char) :
    List (List Char) → List (List Char) → BatchStats →
    BatchStats × List (List Char)
  | [], fs, s => (s, fs)
  | vid :: ids, fs, s =>
    match processOne P fs vid lang fmt with
    | (o, fs2, _) => download_captions_batch P lang fmt ids fs2 (applyOutcome s vid o)

/-- The per-id outcome trace of a batch run, in processing order. -/
def batchTrace (P : CaptionProvider) (lang fmt : List Char) :
    List (List Char) → List (List Char) → List (List Char × BatchOutcome)
  | [], _ => []
  | vid :: ids, fs =>
    match processOne P fs vid lang fmt with
    | (o, fs2, _) => (vid, o) :: batchTrace P lang fmt ids fs2

/-- A successful iteration leaves a file whose name matches the existence
pattern of the same video id and format. -/
theorem processOne_successful_exists {P : CaptionProvider}
    {fs : List (List Char)} {vid lang fmt : List Char} {o : BatchOutcome}
    {fs2 cs : List (List Char)}
    (h : processOne P fs vid lang fmt = (o, fs2, cs))
    (ho : o = BatchOutcome.successful) :
    caption_file_exists fs2 vid fmt = true := by
  subst ho
  unfold processOne at h
  split at h
  · simp at h
  · split at h
    · simp at h
    · split at h
      · simp at h
      · simp at h
      · split at h
        · simp at h
        · split at h
          · simp at h
          · split at h
            · simp at h
            · unfold save_caption at h
              simp only [] at h
              split at h
              · rename_i val2 fsnew hsave
                simp only [Prod.mk.injEq, true_and] at h
                rcases h with ⟨hfs, -⟩
                split at hsave
                · exact absurd hsave (by simp)
                · simp only [Prod.mk.injEq] at hsave
                  rcases hsave with ⟨-, hfs2⟩
                  rw [← hfs, ← hfs2]
                  unfold caption_file_exists
                  rw [List.any_cons]
                  apply Bool.or_eq_true_iff.mpr
                  left
                  exact decide_eq_true (List.suffix_append _ _)
              · simp at h

/-- C7: the existence check runs before any provider call — when a matching
file exists the iteration makes zero calls, changes nothing, and counts the
video as skipped; and after an iteration that saved a caption, re-processing
the same video id and format makes zero provider calls, for any provider. -/
theorem caption_existence_short_circuit :
    (∀ (P : CaptionProvider) (fs : List (List Char)) (vid lang fmt : List Char),
      caption_file_exists fs vid fmt = true →
      processOne P fs vid lang fmt = (BatchOutcome.skipped, fs, [])) ∧
    (∀ (P P2 : CaptionProvider) (fs : List (List Char))
      (vid lang fmt : List Char) (o : BatchOutcome) (fs2 cs : List (List Char)),
      processOne P fs vid lang fmt = (o, fs2, cs) →
      o = BatchOutcome.successful →
      processOne P2 fs2 vid lang fmt = (BatchOutcome.skipped, fs2, [])) := by
  constructor
  · intro P fs vid lang fmt hex
    unfold processOne
    rw [if_pos hex]
  · intro P P2 fs vid lang fmt o fs2 cs h ho
    have hex := processOne_successful_exists h ho
    unfold processOne
    rw [if_pos hex]

/-- Provider fixture that finds and downloads a caption successfully. -/
def okProvider : CaptionProvider :=
  ⟨fun _ => .ok ("T".toList),
   fun _ => .ok [⟨some ("uk".toList), some ("asr".toList), "cap1".toList⟩],
   fun _ _ => .ok ("line".toList)⟩

/-- C7 witness: after a first run that saves the caption of video `v`, a
second run over the resulting store short-circuits to skipped with zero
provider calls. -/
theorem caption_existence_short_circuit_witness :
    processOne okProvider
      ((processOne okProvider [] ("v".toList) ("uk".toList) ("vtt".toList)).2.1)
      ("v".toList) ("uk".toList) ("vtt".toList) =
    (BatchOutcome.skipped,
      (processOne okProvider [] ("v".toList) ("uk".toList) ("vtt".toList)).2.1,
      []) :=
  caption_existence_short_circuit.2 okProvider okProvider [] _ _ _ _ _ _ rfl
    (by decide)

theorem batchTrace_map_fst (P : CaptionProvider) (lang fmt : List Char) :
    ∀ (ids : List (List Char)) (fs : List (List Char)),
      (batchTrace P lang fmt ids fs).map Prod.fst = ids := by
  intro ids
  induction ids with
  | nil => intro fs; rfl
  | cons vid ids ih =>
    intro fs
    rcases hpo : processOne P fs vid lang fmt with ⟨o, fs2, cs⟩
    rw [show batchTrace P lang fmt (vid :: ids) fs =
      (vid, o) :: batchTrace P lang fmt ids fs2 by simp [batchTrace, hpo]]
    rw [List.map_cons, ih fs2]

/-- C8: the batch processes every id in input order and always yields a
statistics result (the trace is total, one entry per id); a
permission-denied failure is categorised under its own outcome, and that
outcome increments only the permission counter and list, never the generic
failed ones. -/
theorem batch_failure_isolation :
    (∀ (P : CaptionProvider) (lang fmt : List Char) (ids fs : List (List Char)),
      (batchTrace P lang fmt ids fs).map Prod.fst = ids) ∧
    (∀ (P : CaptionProvider) (fs : List (List Char)) (vid lang fmt t : List Char),
      caption_file_exists fs vid fmt = false →
      P.title vid = .ok t →
      P.tracks vid = .error PyExc.permissionError →
      (processOne P fs vid lang fmt).1 = BatchOutcome.permissionDenied) ∧
    (∀ (s : BatchStats) (vid : List Char),
      (applyOutcome s vid BatchOutcome.permissionDenied).permission_denied =
        s.permission_denied + 1 ∧
      (applyOutcome s vid BatchOutcome.permissionDenied).permission_denied_ids =
        s.permission_denied_ids ++ [vid] ∧
      (applyOutcome s vid BatchOutcome.permissionDenied).failed = s.failed ∧
      (applyOutcome s vid BatchOutcome.permissionDenied).failed_ids =
        s.failed_ids) := by
  refine ⟨fun P lang fmt ids fs => batchTrace_map_fst P lang fmt ids fs,
    ?_, fun s vid => ⟨rfl, rfl, rfl, rfl⟩⟩
  intro P fs vid lang fmt t hex htitle htracks
  unfold processOne
  rw [if_neg (by simp [hex]), htitle, htracks]

/-- Provider fixture that denies caption-track access. -/
def deniedProvider : CaptionProvider :=
  ⟨fun _ => .ok ("T".toList),
   fun _ => .error PyExc.permissionError,
   fun _ _ => .error ()⟩

/-- C8 witness: a permission failure on an unsaved video is categorised as
permission denied. -/
theorem batch_failure_isolation_witness :
    (processOne deniedProvider [] ("v".toList) ("uk".toList) ("vtt".toList)).1 =
      BatchOutcome.permissionDenied :=
  batch_failure_isolation.2.1 deniedProvider [] ("v".toList) ("uk".toList)
    ("vtt".toList) ("T".toList) (by decide) rfl rfl

theorem batchTrace_length (P : CaptionProvider) (lang fmt : List Char) :
    ∀ (ids fs : List (List Char)),
      (batchTrace P lang fmt ids fs).length = ids.length := by
  intro ids fs
  have := congrArg List.length (batchTrace_map_fst P lang fmt ids fs)
  simpa using this

theorem outcome_filter_sum :
    ∀ t : List (List Char × BatchOutcome),
      (t.filter (fun e => e.2 = BatchOutcome.successful)).length +
      (t.filter (fun e => e.2 = BatchOutcome.failed)).length +
      (t.filter (fun e => e.2 = BatchOutcome.noCaptions)).length +
      (t.filter (fun e => e.2 = BatchOutcome.skipped)).length +
      (t.filter (fun e => e.2 = BatchOutcome.permissionDenied)).length =
      t.length := by
  intro t
  induction t with
  | nil => rfl
  | cons e t ih =>
    rcases e with ⟨vid, o⟩
    cases o <;> simp [List.filter_cons] <;> omega

theorem runBatch_counts (P : CaptionProvider) (lang fmt : List Char) :
    ∀ (ids fs : List (List Char)) (s : BatchStats),
      ((download_captions_batch P lang fmt ids fs s).1.successful =
        s.successful + ((batchTrace P lang fmt ids fs).filter
          (fun e => e.2 = BatchOutcome.successful)).length) ∧
      ((download_captions_batch P lang fmt ids fs s).1.failed =
        s.failed + ((batchTrace P lang fmt ids fs).filter
          (fun e => e.2 = BatchOutcome.failed)).length) ∧
      ((download_captions_batch P lang fmt ids fs s).1.no_captions =
        s.no_captions + ((batchTrace P lang fmt ids fs).filter
          (fun e => e.2 = BatchOutcome.noCaptions)).length) ∧
      ((download_captions_batch P lang fmt ids fs s).1.skipped =
        s.skipped + ((batchTrace P lang fmt ids fs).filter
          (fun e => e.2 = BatchOutcome.skipped)).length) ∧
      ((download_captions_batch P lang fmt ids fs s).1.permission_denied =
        s.permission_denied + ((batchTrace P lang fmt ids fs).filter
          (fun e => e.2 = BatchOutcome.permissionDenied)).length) ∧
      ((download_captions_batch P lang fmt ids fs s).1.failed_ids =
        s.failed_ids ++ ((batchTrace P lang fmt ids fs).filter
          (fun e => e.2 = BatchOutcome.failed)).map Prod.fst) ∧
      ((download_captions_batch P lang fmt ids fs s).1.no_captions_ids =
        s.no_captions_ids ++ ((batchTrace P lang fmt ids fs).filter
          (fun e => e.2 = BatchOutcome.noCaptions)).map Prod.fst) ∧
      ((download_captions_batch P lang fmt ids fs s).1.permission_denied_ids =
        s.permission_denied_ids ++ ((batchTrace P lang fmt ids fs).filter
          (fun e => e.2 = BatchOutcome.permissionDenied)).map Prod.fst) := by
  intro ids
  induction ids with
  | nil =>
    intro fs s
    simp [download_captions_batch, batchTrace]
  | cons vid ids ih =>
    intro fs s
    rcases hpo : processOne P fs vid lang fmt with ⟨o, fs2, cs⟩
    have hrun : download_captions_batch P lang fmt (vid :: ids) fs s =
        download_captions_batch P lang fmt ids fs2 (applyOutcome s vid o) := by
      simp [download_captions_batch, hpo]
    have htr : batchTrace P lang fmt (vid :: ids) fs =
        (vid, o) :: batchTrace P lang fmt ids fs2 := by
      simp [batchTrace, hpo]
    rw [hrun, htr]
    have IH := ih fs2 (applyOutcome s vid o)
    cases o <;>
      simp only [applyOutcome, List.filter_cons] <;>
      simp_all [List.append_assoc] <;>
      omega

/-- C10: the five counters partition the input (their sum is the number of
ids, each id contributing exactly one outcome along the trace), and the three
id lists are exactly the ids whose outcome fell in the corresponding
category, in order. -/
theorem batch_counters_partition (P : CaptionProvider) (lang fmt : List Char)
    (ids fs : List (List Char)) :
    ((download_captions_batch P lang fmt ids fs initStats).1.successful +
     (download_captions_batch P lang fmt ids fs initStats).1.failed +
     (download_captions_batch P lang fmt ids fs initStats).1.no_captions +
     (download_captions_batch P lang fmt ids fs initStats).1.skipped +
     (download_captions_batch P lang fmt ids fs initStats).1.permission_denied =
      ids.length) ∧
    ((download_captions_batch P lang fmt ids fs initStats).1.failed_ids =
      ((batchTrace P lang fmt ids fs).filter
        (fun e => e.2 = BatchOutcome.failed)).map Prod.fst) ∧
    ((download_captions_batch P lang fmt ids fs initStats).1.no_captions_ids =
      ((batchTrace P lang fmt ids fs).filter
        (fun e => e.2 = BatchOutcome.noCaptions)).map Prod.fst) ∧
    ((download_captions_batch P lang fmt ids fs initStats).1.permission_denied_ids =
      ((batchTrace P lang fmt ids fs).filter
        (fun e => e.2 = BatchOutcome.permissionDenied)).map Prod.fst) ∧
    ((download_captions_batch P lang fmt ids fs initStats).1.failed =
      ((batchTrace P lang fmt ids fs).filter
        (fun e => e.2 = BatchOutcome.failed)).length) ∧
    ((download_captions_batch P lang fmt ids fs initStats).1.no_captions =
      ((batchTrace P lang fmt ids fs).filter
        (fun e => e.2 = BatchOutcome.noCaptions)).length) ∧
    ((download_captions_batch P lang fmt ids fs initStats).1.permission_denied =
      ((batchTrace P lang fmt ids fs).filter
        (fun e => e.2 = BatchOutcome.permissionDenied)).length) := by
  rcases runBatch_counts P lang fmt ids fs initStats with
    ⟨h1, h2, h3, h4, h5, h6, h7, h8⟩
  refine ⟨?_, by simpa [initStats] using h6, by simpa [initStats] using h7,
    by simpa [initStats] using h8, by simpa [initStats] using h2,
    by simpa [initStats] using h3, by simpa [initStats] using h5⟩
  rw [h1, h2, h3, h4, h5]
  simp only [initStats, Nat.zero_add]
  rw [← batchTrace_length P lang fmt ids fs]
  exact outcome_filter_sum (batchTrace P lang fmt ids fs)

end YTA
